import Mathlib

/-!
Verification of the CSV aggregation pipeline of `src/src/App.jsx`.

This file gives a shallow embedding of the supplier-aggregation pipeline that
the `Papa.parse` completion callback of `App` runs (App.jsx lines 69-111):

* group the parsed rows by `row.SUPPLIER`, skipping rows whose supplier is
  absent or the empty string (lines 76-77);
* per group, sum `parseFloat(row[col]) || 0` for the three numeric columns
  (lines 88-90);
* compute `total` as the sum of the three running sums (lines 94-97);
* sort descending with the comparator `(a, b) => b.total - a.total` and keep
  the first 15 entries (lines 100-101);
* attach the display label
  `item.name.length > 20 ? item.name.substring(0, 18) + '...' : item.name`
  (lines 104-107).

Modelling conventions:

* JavaScript numbers are modelled exactly (no IEEE-754 rounding) by `JsNum`:
  `nan` is `NaN`, `inf s` is `±Infinity` (`s = true` is `+Infinity`), and
  `fin ⟨n, e⟩` is the rational `n / 10 ^ e`.  Every number the pipeline can
  produce is a sum of values returned by `parseFloat`, which are exactly the
  decimal fractions, so `⟨num, dexp⟩` pairs suffice; the representation is
  not normalised, and value-level comparisons are spelled out with cross
  multiplication.
* A parsed CSV row maps header names to a string or to `undefined` (when the
  row is short); a field is therefore an `Option String`.
* The accumulator object `warehouseData` is modelled as an association list
  in insertion order, which is the enumeration order of `Object.values` for
  the (non array-index) supplier keys this dataset has.
* `Array.prototype.sort` is stable (ES2019) and, per `SortCompare`, a `NaN`
  comparator result is treated as `+0`; `sortJs` below is such a stable sort.
* Numbers carry exact values: `JsNum.add` is exact decimal addition, with no
  binary64 rounding or overflow.  The model therefore agrees with the
  program's IEEE-754 arithmetic only on inputs where that arithmetic is
  itself exact.  Theorems whose truth depends on rounding or overflow
  (sortedness of the output, permutation invariance, finiteness of the
  sums) are stated on `exactDomain` inputs — all contributions integers
  whose total absolute mass is below `2 ^ 53` — on which every parsed
  value, running sum, total and comparator difference is an integer of
  magnitude below `2 ^ 53`, exactly representable and exactly computed by
  binary64 operations, so model and program coincide there.
* The plain object `warehouseData = {}` inherits from `Object.prototype`,
  so for a supplier named after an `Object.prototype` property
  (`"constructor"`, `"toString"`, `"__proto__"`, ...) the truthiness test
  `!warehouseData[warehouse]` sees the inherited member, which is always
  truthy: no own accumulator is ever created, the `+=` lines mutate the
  inherited object, and `Object.values` never emits such a group.  `step`
  models this with the `protoProps` name list.
-/

/-- A JavaScript number, modelled exactly: `NaN`, signed infinity
(`inf true` is `+Infinity`), or the finite decimal `num / 10 ^ dexp`. -/
inductive JsNum where
  | nan : JsNum
  | inf : Bool → JsNum
  | fin : ℤ → ℕ → JsNum
deriving DecidableEq

namespace JsNum

/-- Addition of JavaScript numbers: `NaN` is absorbing, infinities of equal
sign combine, `Infinity + (-Infinity)` is `NaN`, and finite decimals add by
bringing the two values to the common denominator `10 ^ (e₁ + e₂)`.  The
finite case is exact — binary64 rounding (`2 ^ 53 + 1 + 1` is
order-dependent in the program) and overflow (`1e308 + 1e308 = Infinity`)
are not modelled — so claims that depend on the program's double
arithmetic are stated on `exactDomain` inputs, where binary64 addition is
itself exact and agrees with this definition. -/
def add : JsNum → JsNum → JsNum
  | nan, _ => nan
  | _, nan => nan
  | inf s, inf t => if s = t then inf s else nan
  | inf s, fin _ _ => inf s
  | fin _ _, inf t => inf t
  | fin n₁ e₁, fin n₂ e₂ => fin (n₁ * 10 ^ e₂ + n₂ * 10 ^ e₁) (e₁ + e₂)

/-- Negation of a JavaScript number. -/
def neg : JsNum → JsNum
  | nan => nan
  | inf s => inf (!s)
  | fin n e => fin (-n) e

/-- Subtraction, as used by the sort comparator `b.total - a.total`. -/
def sub (a b : JsNum) : JsNum := a.add b.neg

/-- Whether a comparator result counts as `> 0` for `Array.prototype.sort`:
true for `+Infinity` and for positive finite values; `NaN` does not compare
greater than zero (ECMAScript `SortCompare` maps a `NaN` result to `+0`). -/
def isPos : JsNum → Bool
  | nan => false
  | inf s => s
  | fin n _ => decide (0 < n)

/-- The JavaScript `>=` comparison on numbers: any comparison involving `NaN`
is false; otherwise the usual extended-real order, by cross multiplication on
finite decimals. -/
def ge : JsNum → JsNum → Bool
  | nan, _ => false
  | _, nan => false
  | inf s, inf t => s || !t
  | inf s, fin _ _ => s
  | fin _ _, inf t => !t
  | fin n₁ e₁, fin n₂ e₂ => decide (n₂ * 10 ^ e₁ ≤ n₁ * 10 ^ e₂)

/-- Whether the number is finite (neither `NaN` nor an infinity). -/
def isFinite : JsNum → Bool
  | fin _ _ => true
  | _ => false

/-- Value-level equality of two JavaScript numbers: finite decimals are
compared by cross multiplication (so `fin 10 1` and `fin 1 0` are equal
values); `NaN` is treated as a single representation-level value here. -/
def valEq : JsNum → JsNum → Prop
  | fin n₁ e₁, fin n₂ e₂ => n₁ * 10 ^ e₂ = n₂ * 10 ^ e₁
  | inf s, inf t => s = t
  | nan, nan => True
  | _, _ => False

instance : ∀ a b : JsNum, Decidable (valEq a b) := fun a b => by
  cases a <;> cases b <;> simp only [valEq] <;> infer_instance

end JsNum

/-- Numeric value of a digit character. -/
def digVal (c : Char) : ℕ := c.toNat - '0'.toNat

/-- The natural number denoted by a string of decimal digits. -/
def natOfDigits (ds : List Char) : ℕ := ds.foldl (fun n c => 10 * n + digVal c) 0

/-- Whitespace skipped by `parseFloat` before reading the number. -/
def jsSpace (c : Char) : Bool := c = ' ' || c = '\t' || c = '\n' || c = '\r'

/-- Scale a finite decimal `⟨n, e⟩ = n / 10 ^ e` by `10 ^ expo`. -/
def applyExp (n : ℤ) (e : ℕ) (expo : ℤ) : JsNum :=
  match expo with
  | Int.ofNat k => JsNum.fin (n * 10 ^ k) e
  | Int.negSucc k => JsNum.fin n (e + (k + 1))

/-- Model of JavaScript `parseFloat` on the character list of the argument:
skip leading whitespace, read an optional sign, then either an `Infinity`
prefix or a decimal mantissa (digits, an optional fraction, an optional
exponent); the longest valid prefix is converted and the rest ignored, and
the result is `NaN` when no digits occur before the exponent part.  The
value is kept exact: JavaScript rounds it to the nearest binary64 double
and overflows e.g. `parseFloat("1e400")` to `Infinity`; claims sensitive
to that are stated on inputs whose parsed values are integers of small
magnitude (`exactDomain`), where the conversion is exact too. -/
def parseFloatChars (cs0 : List Char) : JsNum :=
  let cs1 := cs0.dropWhile jsSpace
  let sgn : Bool × List Char :=
    match cs1 with
    | '-' :: r => (false, r)
    | '+' :: r => (true, r)
    | _ => (true, cs1)
  let pos := sgn.1
  match sgn.2 with
  | 'I' :: 'n' :: 'f' :: 'i' :: 'n' :: 'i' :: 't' :: 'y' :: _ => JsNum.inf pos
  | cs =>
    let intd := cs.takeWhile Char.isDigit
    let rest := cs.dropWhile Char.isDigit
    let frac : List Char × List Char :=
      match rest with
      | '.' :: r => (r.takeWhile Char.isDigit, r.dropWhile Char.isDigit)
      | _ => ([], rest)
    let fracd := frac.1
    if intd = [] ∧ fracd = [] then JsNum.nan
    else
      let mantNum : ℤ := (natOfDigits intd : ℤ) * 10 ^ fracd.length + (natOfDigits fracd : ℤ)
      let expo : ℤ :=
        match frac.2 with
        | 'e' :: r => parseExpDigits r
        | 'E' :: r => parseExpDigits r
        | _ => 0
      applyExp (if pos then mantNum else -mantNum) fracd.length expo
where
  /-- The exponent denoted by an optional sign and digits after `e`/`E`;
  `0` when no digits follow (then `parseFloat` ignores the exponent part). -/
  parseExpDigits (r : List Char) : ℤ :=
    let es : Bool × List Char :=
      match r with
      | '-' :: rr => (false, rr)
      | '+' :: rr => (true, rr)
      | _ => (true, r)
    let ed := es.2.takeWhile Char.isDigit
    if ed = [] then 0
    else if es.1 then (natOfDigits ed : ℤ) else -(natOfDigits ed : ℤ)

/-- The `parseFloat` call applied to a row field: an absent field is `undefined`,
which stringifies to `"undefined"` and parses to `NaN`. -/
def parseFloat : Option String → JsNum
  | none => JsNum.nan
  | some s => parseFloatChars s.data

/-- The coercion `v || 0` applied to a parsed value (App.jsx lines 88-90):
`NaN` and `±0` are falsy and give the literal `0`; any other number, the
infinities included, is truthy and passes through. -/
def orZero : JsNum → JsNum
  | JsNum.nan => JsNum.fin 0 0
  | JsNum.inf s => JsNum.inf s
  | JsNum.fin n e => if n = 0 then JsNum.fin 0 0 else JsNum.fin n e

/-- The value a row field adds to its running sum: `parseFloat(row[col]) || 0`. -/
def contrib (s : Option String) : JsNum := orZero (parseFloat s)

-- quick sanity checks (kernel-evaluable)
example : parseFloat (some "10") = JsNum.fin 10 0 := by decide
example : parseFloat (some "1.5") = JsNum.fin 15 1 := by decide
example : parseFloat (some "abc") = JsNum.nan := by decide
example : parseFloat (some "") = JsNum.nan := by decide
example : parseFloat none = JsNum.nan := by decide
example : parseFloat (some "Infinity") = JsNum.inf true := by decide
example : parseFloat (some "-Infinity") = JsNum.inf false := by decide
example : parseFloat (some "3abc") = JsNum.fin 3 0 := by decide
example : parseFloat (some "  -2.5e1x") = JsNum.fin (-250) 1 := by decide
example : parseFloat (some "1e-2") = JsNum.fin 1 2 := by decide
example : parseFloat (some "0x10") = JsNum.fin 0 0 := by decide
example : parseFloat (some ".5") = JsNum.fin 5 1 := by decide
example : parseFloat (some "1e") = JsNum.fin 1 0 := by decide
example : contrib (some "abc") = JsNum.fin 0 0 := by decide
example : contrib (some "-0.0") = JsNum.fin 0 0 := by decide
example : JsNum.add (JsNum.inf true) (JsNum.inf false) = JsNum.nan := by decide

/-- A parsed CSV row, restricted to the four columns the callback reads.
`Papa.parse` with `header: true` maps each header to a string; a missing
field is `undefined`, hence `none`. -/
structure Row where
  supplier : Option String
  warehouseSalesStr : Option String
  retailSalesStr : Option String
  retailTransfersStr : Option String
deriving DecidableEq

/-- A per-supplier accumulator object, as created on App.jsx lines 80-85. -/
structure Accum where
  name : String
  warehouseSales : JsNum
  retailSales : JsNum
  retailTransfers : JsNum
deriving DecidableEq

/-- An accumulator together with its computed `total` (lines 94-97). -/
structure TotAcc where
  name : String
  warehouseSales : JsNum
  retailSales : JsNum
  retailTransfers : JsNum
  total : JsNum
deriving DecidableEq

/-- A display-ready record with its `shortName` label (lines 104-107). -/
structure SummaryRecord where
  name : String
  warehouseSales : JsNum
  retailSales : JsNum
  retailTransfers : JsNum
  total : JsNum
  shortName : String
deriving DecidableEq

/-- The grouping key of a row: `none` when the guard
`if (!warehouse || warehouse === '') return` (lines 76-77) skips the row,
i.e. when the supplier is absent (`undefined`) or the empty string (the only
falsy string); otherwise the supplier string itself. -/
def rowKey (r : Row) : Option String :=
  match r.supplier with
  | none => none
  | some w => if w = "" then none else some w

/-- The fresh accumulator created for a first-seen supplier (lines 80-85). -/
def initAcc (w : String) : Accum :=
  { name := w, warehouseSales := JsNum.fin 0 0, retailSales := JsNum.fin 0 0,
    retailTransfers := JsNum.fin 0 0 }

/-- One row's `+=` updates on its accumulator (lines 88-90). -/
def addRow (r : Row) (a : Accum) : Accum :=
  { a with
    warehouseSales := a.warehouseSales.add (contrib r.warehouseSalesStr),
    retailSales := a.retailSales.add (contrib r.retailSalesStr),
    retailTransfers := a.retailTransfers.add (contrib r.retailTransfersStr) }

/-- Lookup in the accumulator map (the read `warehouseData[warehouse]`),
as an own-key lookup.  It is consulted only for keys that are not
`Object.prototype` property names (`step` diverts those first), for which
the own-key view is exact: the only other inherited values such a key can
ever see are the `NaN`s a `"__proto__"`-supplier row writes onto
`Object.prototype`, and `NaN` is falsy, indistinguishable from an absent
key for the truthiness test. -/
def findAcc (m : List (String × Accum)) (w : String) : Option Accum :=
  match m with
  | [] => none
  | p :: rest => if p.1 = w then some p.2 else findAcc rest w

/-- The property names of `Object.prototype`: looking any of these up on
the plain object `warehouseData = {}` before an own key exists yields the
inherited member (a method, or `Object.prototype` itself for
`"__proto__"`), and every one of those inherited values is truthy. -/
def protoProps : List String :=
  ["constructor", "hasOwnProperty", "isPrototypeOf", "propertyIsEnumerable",
   "toLocaleString", "toString", "valueOf", "__proto__", "__defineGetter__",
   "__defineSetter__", "__lookupGetter__", "__lookupSetter__"]

/-- The body of `results.data.forEach` (lines 75-91) acting on the
accumulator map: skip the row when the supplier guard fires.  When the
supplier names an `Object.prototype` property, the truthiness test
`!warehouseData[warehouse]` (line 79) sees the inherited member, which is
truthy, so no own accumulator is created; the three `+=` then mutate that
inherited object, which `Object.values` never enumerates, so the emitted
map is unchanged.  Otherwise create the accumulator on first occurrence (a
fresh key is appended, which is where `Object.values` will enumerate it)
and apply the three `+=`. -/
def step (m : List (String × Accum)) (r : Row) : List (String × Accum) :=
  match rowKey r with
  | none => m
  | some w =>
    if w ∈ protoProps then m
    else
      let m1 := if (findAcc m w).isSome then m else m ++ [(w, initAcc w)]
      m1.map (fun p => if p.1 = w then (p.1, addRow r p.2) else p)

/-- The accumulator map after consuming all rows (the `warehouseData`
object right after the `forEach` on lines 73-91). -/
def warehouseData (rows : List Row) : List (String × Accum) :=
  rows.foldl step []

/-- Attach `total: item.warehouseSales + item.retailSales +
item.retailTransfers` (lines 94-97). -/
def withTotal (a : Accum) : TotAcc :=
  { name := a.name, warehouseSales := a.warehouseSales, retailSales := a.retailSales,
    retailTransfers := a.retailTransfers,
    total := (a.warehouseSales.add a.retailSales).add a.retailTransfers }

/-- The array `Object.values(warehouseData).map(...)` (lines 94-97): the accumulators
in insertion order, each with its total. -/
def dataArray (rows : List Row) : List TotAcc :=
  (warehouseData rows).map (fun p => withTotal p.2)

/-- Whether the sort keeps `a` before `b`: the comparator
`(a, b) => b.total - a.total` (line 100) does not return a value `> 0`
(ECMAScript `SortCompare` treats a `NaN` comparator result as `+0`). -/
def sortLe (a b : TotAcc) : Bool := ! (JsNum.sub b.total a.total).isPos

/-- Insert `x` after every element the comparator keeps before it. -/
def insertJs {α : Type} (le : α → α → Bool) (x : α) : List α → List α
  | [] => [x]
  | y :: ys => if le y x then y :: insertJs le x ys else x :: y :: ys

/-- A stable sort by the comparator-induced order: elements are taken in
input order and each is placed after all already-placed elements that the
comparator keeps before it.  This models `Array.prototype.sort`, which is
required to be stable since ES2019. -/
def sortJs {α : Type} (le : α → α → Bool) (l : List α) : List α :=
  l.foldl (fun acc x => insertJs le x acc) []

/-- The sorted array `dataArray.sort((a, b) => b.total - a.total)` (line 100). -/
def sortedArray (rows : List Row) : List TotAcc :=
  sortJs sortLe (dataArray rows)

/-- The slice `dataArray.slice(0, 15)` (line 101). -/
def topWarehouses (rows : List Row) : List TotAcc :=
  (sortedArray rows).take 15

/-- Model of `s.substring(0, n)` for a nonnegative literal `n`: the first `n`
characters (JavaScript counts UTF-16 units; the model counts characters). -/
def jsSubstring (s : String) (n : ℕ) : String := String.mk (s.data.take n)

/-- The display-label map (lines 104-107): `shortName` is the name itself
unless its length exceeds 20, in which case it is the first 18 characters
followed by the three-character marker `"..."`. -/
def shorten (t : TotAcc) : SummaryRecord :=
  { name := t.name, warehouseSales := t.warehouseSales, retailSales := t.retailSales,
    retailTransfers := t.retailTransfers, total := t.total,
    shortName := if 20 < t.name.length then jsSubstring t.name 18 ++ "..." else t.name }

/-- The `formattedData` array (lines 104-107): the display-ready output sequence. -/
def formattedData (rows : List Row) : List SummaryRecord :=
  (topWarehouses rows).map shorten

/-- The aggregation pipeline, input rows to output records; this is the
`aggregate` contract of the specification. -/
def aggregate : List Row → List SummaryRecord := formattedData

-- sanity checks
example :
    aggregate [⟨some "Acme", some "10", some "5", some "0"⟩,
               ⟨some "Acme", some "3", none, some "2"⟩] =
      [{ name := "Acme", warehouseSales := JsNum.fin 13 0, retailSales := JsNum.fin 5 0,
         retailTransfers := JsNum.fin 2 0, total := JsNum.fin 20 0, shortName := "Acme" }] := by
  decide

example : aggregate [⟨some "", some "1", some "1", some "1"⟩] = [] := by decide

example :
    (aggregate [⟨some "B", some "1", none, none⟩, ⟨some "A", some "2", none, none⟩]).map
        SummaryRecord.name = ["A", "B"] := by
  decide

namespace JsNum

theorem nan_add : ∀ b : JsNum, nan.add b = nan := by
  intro b; cases b <;> rfl

theorem add_nan : ∀ a : JsNum, a.add nan = nan := by
  intro a; cases a <;> rfl

theorem add_comm' : ∀ a b : JsNum, a.add b = b.add a := by
  intro a b
  cases a <;> cases b <;> simp only [add]
  case inf.inf s t =>
    by_cases h : s = t
    · simp [h]
    · simp [h, Ne.symm h]
  case fin.fin n₁ e₁ n₂ e₂ =>
    rw [Int.add_comm, Nat.add_comm]

theorem add_assoc' : ∀ a b c : JsNum, (a.add b).add c = a.add (b.add c) := by
  intro a b c
  cases a with
  | nan => simp [nan_add]
  | inf s =>
    cases b with
    | nan => simp [nan_add, add_nan]
    | inf t =>
      cases c with
      | nan => simp [nan_add, add_nan]
      | inf u => cases s <;> cases t <;> cases u <;> decide
      | fin n e =>
        by_cases h : s = t <;> simp [add, h]
    | fin n₂ e₂ =>
      cases c with
      | nan => simp [nan_add, add_nan]
      | inf u => simp [add]
      | fin n₃ e₃ => simp [add]
  | fin n₁ e₁ =>
    cases b with
    | nan => simp [nan_add, add_nan]
    | inf t =>
      cases c with
      | nan => simp [nan_add, add_nan]
      | inf u => by_cases h : t = u <;> simp [add, h]
      | fin n₃ e₃ => simp [add]
    | fin n₂ e₂ =>
      cases c with
      | nan => simp [nan_add, add_nan]
      | inf u => simp [add]
      | fin n₃ e₃ =>
        simp only [add, JsNum.fin.injEq]
        constructor
        · ring
        · omega

theorem add_right_comm' (x a b : JsNum) : (x.add a).add b = (x.add b).add a := by
  rw [add_assoc', add_assoc', add_comm' a b]

end JsNum

theorem addRow_comm (r₁ r₂ : Row) (a : Accum) :
    addRow r₁ (addRow r₂ a) = addRow r₂ (addRow r₁ a) := by
  simp only [addRow, JsNum.add_right_comm' a.warehouseSales, JsNum.add_right_comm' a.retailSales,
    JsNum.add_right_comm' a.retailTransfers]

theorem addRow_name (r : Row) (a : Accum) : (addRow r a).name = a.name := rfl

/-- The non-skipped supplier keys of the rows, in row order, with
multiplicity. -/
def rowKeys (rows : List Row) : List String := rows.filterMap rowKey

/-- First-occurrence deduplication: the distinct elements of `l` in the
order of their first occurrence, which is the key insertion order of the
`warehouseData` object. -/
def seenKeys (l : List String) : List String :=
  l.foldl (fun ks w => if w ∈ ks then ks else ks ++ [w]) []

/-- The non-skipped supplier keys that can become own keys of the
accumulator object: a key naming an `Object.prototype` property never
passes the truthiness test and is dropped. -/
def ownKeys (rows : List Row) : List String :=
  (rowKeys rows).filter (fun w => decide (w ∉ protoProps))

/-- The distinct own supplier keys in first-occurrence order. -/
def keyList (rows : List Row) : List String := seenKeys (ownKeys rows)

/-- The accumulator a single key ends up with: the fold of `addRow` over
exactly the rows carrying that key. -/
def accFor (rows : List Row) (w : String) : Accum :=
  (rows.filter (fun r => decide (rowKey r = some w))).foldl (fun a r => addRow r a) (initAcc w)

theorem seenKeys_append_one (l : List String) (w : String) :
    seenKeys (l ++ [w]) = if w ∈ seenKeys l then seenKeys l else seenKeys l ++ [w] := by
  simp [seenKeys, List.foldl_append]

theorem mem_seenKeys (l : List String) : ∀ a, a ∈ seenKeys l ↔ a ∈ l := by
  induction l using List.reverseRecOn with
  | nil => simp [seenKeys]
  | append_singleton l w ih =>
    intro a
    rw [seenKeys_append_one]
    by_cases hw : w ∈ seenKeys l
    · have hw' : w ∈ l := (ih w).mp hw
      rw [if_pos hw, ih a, List.mem_append, List.mem_singleton]
      constructor
      · exact Or.inl
      · rintro (h | rfl)
        · exact h
        · exact hw'
    · rw [if_neg hw]
      simp [ih]

theorem nodup_seenKeys (l : List String) : (seenKeys l).Nodup := by
  induction l using List.reverseRecOn with
  | nil => simp [seenKeys]
  | append_singleton l w ih =>
    rw [seenKeys_append_one]
    by_cases hw : w ∈ seenKeys l
    · simpa [if_pos hw]
    · rw [if_neg hw]
      exact List.Nodup.append ih (List.nodup_singleton w)
        (List.disjoint_singleton.mpr hw)

theorem accFor_append_one (rows : List Row) (r : Row) (w : String) :
    accFor (rows ++ [r]) w =
      if rowKey r = some w then addRow r (accFor rows w) else accFor rows w := by
  by_cases h : rowKey r = some w <;>
    simp [accFor, List.filter_append, h, List.foldl_append]

theorem foldl_addRow_name (l : List Row) (a : Accum) :
    (l.foldl (fun a r => addRow r a) a).name = a.name := by
  induction l generalizing a with
  | nil => rfl
  | cons r l ih => simpa [List.foldl_cons] using ih (addRow r a)

theorem accFor_name (rows : List Row) (w : String) : (accFor rows w).name = w :=
  foldl_addRow_name _ _

theorem accFor_not_mem (rows : List Row) (w : String) (h : w ∉ rowKeys rows) :
    accFor rows w = initAcc w := by
  have : rows.filter (fun r => decide (rowKey r = some w)) = [] := by
    rw [List.filter_eq_nil_iff]
    intro r hr hkey
    exact h (List.mem_filterMap.mpr ⟨r, hr, by simpa using hkey⟩)
  simp [accFor, this]

theorem findAcc_map_isSome (ks : List String) (g : String → Accum) (w : String) :
    (findAcc (ks.map fun k => (k, g k)) w).isSome = true ↔ w ∈ ks := by
  induction ks with
  | nil => simp [findAcc]
  | cons k ks ih =>
    by_cases h : k = w
    · simp [findAcc, h]
    · simp only [List.map_cons, findAcc, if_neg h, ih, List.mem_cons]
      constructor
      · exact Or.inr
      · rintro (hh | hh)
        · exact absurd hh.symm h
        · exact hh

theorem warehouseData_append_one (rows : List Row) (r : Row) :
    warehouseData (rows ++ [r]) = step (warehouseData rows) r := by
  simp [warehouseData, List.foldl_append]

theorem keyList_append_one_none (rows : List Row) (r : Row) (h : rowKey r = none) :
    keyList (rows ++ [r]) = keyList rows := by
  simp [keyList, ownKeys, rowKeys, List.filterMap_append, h]

theorem keyList_append_one_proto (rows : List Row) (r : Row) (k : String)
    (h : rowKey r = some k) (hp : k ∈ protoProps) :
    keyList (rows ++ [r]) = keyList rows := by
  simp only [keyList, ownKeys, rowKeys, List.filterMap_append, List.filter_append]
  have hr : (List.filterMap rowKey [r]).filter (fun w => decide (w ∉ protoProps)) = [] := by
    simp [h, hp]
  rw [hr, List.append_nil]

theorem keyList_append_one_some (rows : List Row) (r : Row) (k : String)
    (h : rowKey r = some k) (hp : k ∉ protoProps) :
    keyList (rows ++ [r]) =
      if k ∈ keyList rows then keyList rows else keyList rows ++ [k] := by
  simp only [keyList, ownKeys, rowKeys, List.filterMap_append, List.filter_append]
  have hr : (List.filterMap rowKey [r]).filter (fun w => decide (w ∉ protoProps)) = [k] := by
    simp [h, hp]
  rw [hr]
  exact seenKeys_append_one _ k

theorem keyList_not_proto (rows : List Row) (w : String) (h : w ∈ keyList rows) :
    w ∉ protoProps := by
  rw [keyList, mem_seenKeys] at h
  simpa using List.of_mem_filter h

/-- The accumulator map is exactly the first-occurrence key list, each key
paired with the fold of its own rows' updates. -/
theorem warehouseData_eq (rows : List Row) :
    warehouseData rows = (keyList rows).map (fun w => (w, accFor rows w)) := by
  induction rows using List.reverseRecOn with
  | nil => rfl
  | append_singleton rows r ih =>
    rw [warehouseData_append_one, ih]
    cases hk : rowKey r with
    | none =>
      rw [keyList_append_one_none rows r hk]
      simp only [step, hk]
      refine List.map_congr_left fun w _ => ?_
      rw [accFor_append_one]
      simp [hk]
    | some k =>
      by_cases hproto : k ∈ protoProps
      · rw [keyList_append_one_proto rows r k hk hproto]
        simp only [step, hk, if_pos hproto]
        refine List.map_congr_left fun w hw => ?_
        have hwp : w ∉ protoProps := keyList_not_proto rows w hw
        have hne : ¬ (rowKey r = some w) := by
          rw [hk]
          intro hh
          exact hwp (Option.some_inj.mp hh ▸ hproto)
        rw [accFor_append_one]
        simp [hne]
      · by_cases hmem : k ∈ keyList rows
        · rw [keyList_append_one_some rows r k hk hproto, if_pos hmem]
          simp only [step, hk, if_neg hproto]
          rw [if_pos ((findAcc_map_isSome _ _ _).mpr hmem), List.map_map]
          refine List.map_congr_left fun w _ => ?_
          by_cases hwk : w = k
          · subst hwk
            simp [Function.comp, accFor_append_one, hk]
          · have : ¬ (some k = some w) := by simpa using fun hh => hwk hh.symm
            simp [Function.comp, hwk, accFor_append_one, hk, this]
        · rw [keyList_append_one_some rows r k hk hproto, if_neg hmem]
          simp only [step, hk, if_neg hproto]
          have hfind : ¬ ((findAcc ((keyList rows).map fun w => (w, accFor rows w)) k).isSome
              = true) := by
            rw [findAcc_map_isSome]; exact hmem
          rw [if_neg hfind, List.map_append, List.map_map, List.map_append]
          congr 1
          · refine List.map_congr_left fun w hw => ?_
            have hwk : w ≠ k := fun hh => hmem (hh ▸ hw)
            have : ¬ (some k = some w) := by simpa using fun hh => hwk hh.symm
            simp [Function.comp, hwk, accFor_append_one, hk, this]
          · have hnew : k ∉ rowKeys rows := fun hh =>
              hmem ((mem_seenKeys _ k).mpr
                (List.mem_filter.mpr ⟨hh, by simpa using hproto⟩))
            simp [accFor_append_one, hk, accFor_not_mem rows k hnew]

theorem insertJs_perm {α : Type} (le : α → α → Bool) (x : α) (l : List α) :
    (insertJs le x l).Perm (x :: l) := by
  induction l with
  | nil => exact List.Perm.refl _
  | cons y ys ih =>
    by_cases h : le y x = true
    · rw [insertJs, if_pos h]
      exact (ih.cons y).trans (List.Perm.swap x y ys)
    · rw [insertJs, if_neg h]

theorem mem_insertJs {α : Type} (le : α → α → Bool) (x : α) (l : List α) (a : α) :
    a ∈ insertJs le x l ↔ a = x ∨ a ∈ l := by
  simpa using (insertJs_perm le x l).mem_iff

theorem sortJs_aux_perm {α : Type} (le : α → α → Bool) (l : List α) :
    ∀ acc : List α, (l.foldl (fun acc x => insertJs le x acc) acc).Perm (l ++ acc) := by
  induction l with
  | nil => intro acc; exact List.Perm.refl _
  | cons x xs ih =>
    intro acc
    rw [List.foldl_cons]
    refine (ih (insertJs le x acc)).trans ?_
    refine ((insertJs_perm le x acc).append_left xs).trans ?_
    exact List.perm_middle

theorem sortJs_perm {α : Type} (le : α → α → Bool) (l : List α) :
    (sortJs le l).Perm l := by
  simpa using sortJs_aux_perm le l []

theorem pairwise_insertJs {α : Type} (le : α → α → Bool) (x : α) (l : List α) (P : α → Prop)
    (htot : ∀ a, P a → ∀ b, P b → le a b = true ∨ le b a = true)
    (htr : ∀ a, P a → ∀ b, P b → ∀ c, P c →
      le a b = true → le b c = true → le a c = true)
    (hx : P x) (hl : ∀ a ∈ l, P a)
    (hp : l.Pairwise (fun a b => le a b = true)) :
    (insertJs le x l).Pairwise (fun a b => le a b = true) := by
  induction l with
  | nil => simp [insertJs]
  | cons y ys ih =>
    obtain ⟨hy, hys⟩ := List.pairwise_cons.mp hp
    have hyP : P y := hl y (List.mem_cons_self y ys)
    by_cases h : le y x = true
    · rw [insertJs, if_pos h]
      refine List.pairwise_cons.mpr
        ⟨?_, ih (fun a ha => hl a (List.mem_cons_of_mem _ ha)) hys⟩
      intro b hb
      rcases (mem_insertJs le x ys b).mp hb with rfl | hbys
      · exact h
      · exact hy b hbys
    · rw [insertJs, if_neg h]
      have hxy : le x y = true := by
        rcases htot y hyP x hx with hh | hh
        · exact absurd hh h
        · exact hh
      refine List.pairwise_cons.mpr ⟨?_, hp⟩
      intro b hb
      rcases List.mem_cons.mp hb with rfl | hbys
      · exact hxy
      · exact htr x hx y hyP b (hl b (List.mem_cons_of_mem _ hbys)) hxy (hy b hbys)

theorem pairwise_sortJs {α : Type} (le : α → α → Bool) (l : List α) (P : α → Prop)
    (hl : ∀ a ∈ l, P a)
    (htot : ∀ a, P a → ∀ b, P b → le a b = true ∨ le b a = true)
    (htr : ∀ a, P a → ∀ b, P b → ∀ c, P c →
      le a b = true → le b c = true → le a c = true) :
    (sortJs le l).Pairwise (fun a b => le a b = true) := by
  suffices h : ∀ l' : List α, (∀ a ∈ l', P a) → ∀ acc : List α, (∀ a ∈ acc, P a) →
      acc.Pairwise (fun a b => le a b = true) →
      (l'.foldl (fun acc x => insertJs le x acc) acc).Pairwise
        (fun a b => le a b = true) by
    exact h l hl [] (by simp) (by simp)
  intro l'
  induction l' with
  | nil => intro _ acc _ hacc; simpa using hacc
  | cons x xs ih =>
    intro hmem acc haccP hacc
    have hx : P x := hmem x (List.mem_cons_self x xs)
    rw [List.foldl_cons]
    refine ih (fun a ha => hmem a (List.mem_cons_of_mem _ ha)) (insertJs le x acc) ?_ ?_
    · intro a ha
      rcases (mem_insertJs le x acc a).mp ha with rfl | h
      · exact hx
      · exact haccP a h
    · exact pairwise_insertJs le x acc P htot htr hx haccP hacc

/-- All three numeric contributions of a row are finite; since `|| 0` maps
`NaN` to `0`, this fails only when a numeric field parses to `±Infinity`. -/
def finiteRow (r : Row) : Prop :=
  (contrib r.warehouseSalesStr).isFinite = true ∧
  (contrib r.retailSalesStr).isFinite = true ∧
  (contrib r.retailTransfersStr).isFinite = true

/-- All three running sums of an accumulator are finite. -/
def finiteAccum (a : Accum) : Prop :=
  a.warehouseSales.isFinite = true ∧ a.retailSales.isFinite = true ∧
  a.retailTransfers.isFinite = true

theorem JsNum.add_finite {a b : JsNum} (ha : a.isFinite = true) (hb : b.isFinite = true) :
    (a.add b).isFinite = true := by
  cases a <;> cases b <;> simp_all [JsNum.isFinite, JsNum.add]

theorem foldl_addRow_finite (l : List Row) (hl : ∀ r ∈ l, finiteRow r) :
    ∀ a : Accum, finiteAccum a → finiteAccum (l.foldl (fun a r => addRow r a) a) := by
  induction l with
  | nil => intro a ha; exact ha
  | cons r l ih =>
    intro a ha
    rw [List.foldl_cons]
    obtain ⟨h1, h2, h3⟩ := hl r (List.mem_cons_self r l)
    obtain ⟨g1, g2, g3⟩ := ha
    exact ih (fun x hx => hl x (List.mem_cons_of_mem _ hx)) (addRow r a)
      ⟨JsNum.add_finite g1 h1, JsNum.add_finite g2 h2, JsNum.add_finite g3 h3⟩

theorem accFor_finite (rows : List Row) (w : String) (h : ∀ r ∈ rows, finiteRow r) :
    finiteAccum (accFor rows w) := by
  refine foldl_addRow_finite _ (fun r hr => h r (List.mem_of_mem_filter hr)) _ ?_
  exact ⟨rfl, rfl, rfl⟩

theorem withTotal_total_finite {a : Accum} (ha : finiteAccum a) :
    (withTotal a).total.isFinite = true := by
  obtain ⟨h1, h2, h3⟩ := ha
  exact JsNum.add_finite (JsNum.add_finite h1 h2) h3

/-- Every output record arises by `shorten` from a member of `dataArray`. -/
theorem mem_of_mem_formattedData (rows : List Row) (rec : SummaryRecord)
    (h : rec ∈ formattedData rows) :
    ∃ t ∈ dataArray rows, rec = shorten t := by
  obtain ⟨t, ht, rfl⟩ := List.mem_map.mp h
  have ht1 : t ∈ sortedArray rows := List.take_subset _ _ ht
  exact ⟨t, ((sortJs_perm _ _).mem_iff).mp ht1, rfl⟩

theorem mem_dataArray (rows : List Row) (t : TotAcc) (h : t ∈ dataArray rows) :
    ∃ w ∈ keyList rows, t = withTotal (accFor rows w) := by
  rw [dataArray, warehouseData_eq, List.map_map] at h
  obtain ⟨w, hw, rfl⟩ := List.mem_map.mp h
  exact ⟨w, hw, rfl⟩

theorem names_dataArray (rows : List Row) :
    (dataArray rows).map TotAcc.name = keyList rows := by
  rw [dataArray, List.map_map, warehouseData_eq, List.map_map]
  refine (List.map_congr_left fun w hw => ?_).trans (List.map_id _)
  exact accFor_name rows w

theorem rowKey_some {r : Row} {w : String} (h : rowKey r = some w) :
    r.supplier = some w := by
  cases hs : r.supplier with
  | none => simp [rowKey, hs] at h
  | some s =>
    simp only [rowKey, hs] at h
    by_cases he : s = ""
    · rw [if_pos he] at h; cases h
    · rw [if_neg he] at h
      exact h

/-- C3 counterexample: a supplier named `"constructor"` makes the
truthiness test `!warehouseData[warehouse]` see the inherited, truthy
`Object.prototype.constructor`, so no accumulator is ever created and the
output is empty, while the claimed invariant demands `min(1, 15) = 1`
records for this one distinct non-empty supplier key. -/
theorem output_length_counterexample :
    aggregate [⟨some "constructor", some "1", none, none⟩] = [] ∧
    (rowKeys [⟨some "constructor", some "1", none, none⟩]).dedup.length = 1 ∧
    ¬ ((aggregate [⟨some "constructor", some "1", none, none⟩]).length =
        min ((rowKeys [⟨some "constructor", some "1", none, none⟩]).dedup.length) 15) := by
  decide

/-- C3 (amended): for every finite input sequence of rows, the output
length equals `min n 15`, where `n` counts the distinct non-empty supplier
keys that are not `Object.prototype` property names; a supplier string
naming an inherited `Object.prototype` member never forms an own key, so
it yields no record.  In particular the length is at most 15 and at most
the number of distinct non-empty grouping keys. -/
theorem output_length_eq_min_distinct (rows : List Row) :
    (aggregate rows).length = min ((ownKeys rows).dedup.length) 15 := by
  have h1 : (aggregate rows).length = min 15 (dataArray rows).length := by
    simp [aggregate, formattedData, topWarehouses, List.length_take, sortedArray,
      (sortJs_perm sortLe (dataArray rows)).length_eq]
  have h2 : (dataArray rows).length = (keyList rows).length := by
    simp [dataArray, warehouseData_eq]
  have h3 : (keyList rows).length = (ownKeys rows).dedup.length := by
    have hperm : (keyList rows).Perm (ownKeys rows).dedup := by
      rw [keyList, List.perm_ext_iff_of_nodup (nodup_seenKeys _) (List.nodup_dedup _)]
      intro a
      rw [mem_seenKeys, List.mem_dedup]
    exact hperm.length_eq
  rw [h1, h2, h3, Nat.min_comm]

/-- C5: for every record of the output sequence, `total` is exactly the sum
of that record's `warehouseSales`, `retailSales` and `retailTransfers`. -/
theorem total_eq_sum_of_fields (rows : List Row) (rec : SummaryRecord)
    (h : rec ∈ aggregate rows) :
    rec.total = (rec.warehouseSales.add rec.retailSales).add rec.retailTransfers := by
  obtain ⟨t, ht, rfl⟩ := mem_of_mem_formattedData rows rec h
  obtain ⟨w, hw, rfl⟩ := mem_dataArray rows t ht
  rfl

/-- Witness for C5 at a concrete input. -/
theorem total_eq_sum_of_fields_witness :
    ({ name := "Acme", warehouseSales := JsNum.fin 10 0, retailSales := JsNum.fin 5 0,
       retailTransfers := JsNum.fin 0 0, total := JsNum.fin 15 0,
       shortName := "Acme" } : SummaryRecord) ∈
        aggregate [⟨some "Acme", some "10", some "5", some "0"⟩] ∧
    (JsNum.fin 15 0 : JsNum) =
      ((JsNum.fin 10 0).add (JsNum.fin 5 0)).add (JsNum.fin 0 0) :=
  ⟨by decide, total_eq_sum_of_fields [⟨some "Acme", some "10", some "5", some "0"⟩]
    { name := "Acme", warehouseSales := JsNum.fin 10 0, retailSales := JsNum.fin 5 0,
      retailTransfers := JsNum.fin 0 0, total := JsNum.fin 15 0, shortName := "Acme" }
    (by decide)⟩

theorem step_none {m : List (String × Accum)} {r : Row} (h : rowKey r = none) :
    step m r = m := by
  simp [step, h]

theorem foldl_step_filter (rows : List Row) :
    ∀ m, (rows.filter fun r => (rowKey r).isSome).foldl step m = rows.foldl step m := by
  induction rows with
  | nil => intro m; rfl
  | cons r rows ih =>
    intro m
    cases hk : rowKey r with
    | none =>
      rw [List.filter_cons, if_neg (by simp [hk]), List.foldl_cons, step_none hk, ih]
    | some k =>
      rw [List.filter_cons, if_pos (by simp [hk]), List.foldl_cons, List.foldl_cons, ih]

/-- C6: rows whose supplier is absent or empty are excluded entirely: keeping
only the guarded rows yields the very same output, and an input all of whose
rows fail the guard (in particular the empty input) yields `[]`. -/
theorem empty_supplier_rows_excluded (rows : List Row) :
    aggregate (rows.filter fun r => (rowKey r).isSome) = aggregate rows ∧
    ((∀ r ∈ rows, rowKey r = none) → aggregate rows = []) := by
  have h1 : aggregate (rows.filter fun r => (rowKey r).isSome) = aggregate rows := by
    simp [aggregate, formattedData, topWarehouses, sortedArray, dataArray, warehouseData,
      foldl_step_filter rows []]
  refine ⟨h1, fun hall => ?_⟩
  have h2 : rows.filter (fun r => (rowKey r).isSome) = [] := by
    rw [List.filter_eq_nil_iff]
    intro r hr
    simp [hall r hr]
  rw [← h1, h2]
  rfl

/-- Witness for C6 at a concrete input (an empty-string supplier and a
missing supplier). -/
theorem empty_supplier_rows_excluded_witness :
    aggregate [⟨some "", some "1", some "2", some "3"⟩, ⟨none, some "4", none, none⟩] = [] :=
  (empty_supplier_rows_excluded
      [⟨some "", some "1", some "2", some "3"⟩, ⟨none, some "4", none, none⟩]).2
    (by decide)

/-- C8: each distinct non-empty supplier yields at most one output record:
output names are pairwise distinct, and each is the exact supplier string of
some input row. -/
theorem names_distinct_and_from_input (rows : List Row) :
    ((aggregate rows).map SummaryRecord.name).Nodup ∧
    ∀ rec ∈ aggregate rows, ∃ r ∈ rows, r.supplier = some rec.name := by
  constructor
  · have hshort : (aggregate rows).map SummaryRecord.name =
        (topWarehouses rows).map TotAcc.name := by
      rw [aggregate, formattedData, List.map_map]
      exact List.map_congr_left fun t _ => rfl
    have hsorted : ((sortedArray rows).map TotAcc.name).Nodup := by
      have hperm : ((sortedArray rows).map TotAcc.name).Perm
          ((dataArray rows).map TotAcc.name) := (sortJs_perm _ _).map _
      rw [names_dataArray] at hperm
      exact hperm.symm.nodup (nodup_seenKeys _)
    rw [hshort, topWarehouses, List.map_take]
    exact List.Nodup.sublist (List.take_sublist 15 _) hsorted
  · intro rec hrec
    obtain ⟨t, ht, rfl⟩ := mem_of_mem_formattedData rows rec hrec
    obtain ⟨w, hw, rfl⟩ := mem_dataArray rows t ht
    have hw'' : w ∈ ownKeys rows := (mem_seenKeys _ w).mp hw
    have hw' : w ∈ rowKeys rows := List.mem_of_mem_filter hw''
    obtain ⟨r, hr, hkey⟩ := List.mem_filterMap.mp hw'
    refine ⟨r, hr, ?_⟩
    have : (shorten (withTotal (accFor rows w))).name = w := accFor_name rows w
    rw [this]
    exact rowKey_some hkey

/-- Witness for C8 at a concrete input. -/
theorem names_distinct_and_from_input_witness :
    ∃ r ∈ [(⟨some "Zed", some "1", none, none⟩ : Row)], r.supplier = some "Zed" := by
  have h := (names_distinct_and_from_input [⟨some "Zed", some "1", none, none⟩]).2
    { name := "Zed", warehouseSales := JsNum.fin 1 0, retailSales := JsNum.fin 0 0,
      retailTransfers := JsNum.fin 0 0, total := JsNum.fin 1 0, shortName := "Zed" }
    (by decide)
  exact h

/-- C1 counterexample: for the 21-character supplier name
`"ABCDEFGHIJKLMNOPQRSTU"` the code produces the label
`"ABCDEFGHIJKLMNOPQR..."` of length 21 (18 characters plus the
three-character marker `"..."`), not 19 as claimed. -/
theorem label_length_counterexample :
    ((aggregate [⟨some "ABCDEFGHIJKLMNOPQRSTU", some "1", none, none⟩]).map
        SummaryRecord.shortName) = ["ABCDEFGHIJKLMNOPQR..."] ∧
    ("ABCDEFGHIJKLMNOPQR..." : String).length = 21 ∧
    ("ABCDEFGHIJKLMNOPQRSTU" : String).length = 21 ∧
    ¬ ("ABCDEFGHIJKLMNOPQR..." : String).length = 19 := by
  decide

/-- C1 (amended): for every retained record, a name of length at most 20 is
displayed unchanged, and a name of length exceeding 20 is displayed as its
first 18 characters followed by the three-character marker `"..."`, for a
total label length of 21 (not 19: the source appends the three ASCII dots
`'...'`, not a single-character ellipsis). -/
theorem label_spec (rows : List Row) (rec : SummaryRecord) (h : rec ∈ aggregate rows) :
    (rec.name.length ≤ 20 → rec.shortName = rec.name) ∧
    (20 < rec.name.length →
      rec.shortName.length = 21 ∧
      rec.shortName.data.take 18 = rec.name.data.take 18 ∧
      rec.shortName.data.drop 18 = ['.', '.', '.']) := by
  obtain ⟨t, ht, rfl⟩ := mem_of_mem_formattedData rows rec h
  constructor
  · intro hle
    have hle' : t.name.length ≤ 20 := hle
    show (if 20 < t.name.length then jsSubstring t.name 18 ++ "..." else t.name) = t.name
    rw [if_neg (by omega)]
  · intro hgt
    have hgt' : 20 < t.name.length := hgt
    have hdata : 20 < t.name.data.length := hgt'
    show ((if 20 < t.name.length then jsSubstring t.name 18 ++ "..." else t.name).length = 21) ∧
      ((if 20 < t.name.length then jsSubstring t.name 18 ++ "..." else t.name).data.take 18 =
        t.name.data.take 18) ∧
      ((if 20 < t.name.length then jsSubstring t.name 18 ++ "..." else t.name).data.drop 18 =
        ['.', '.', '.'])
    rw [if_pos hgt']
    have hdataeq : (jsSubstring t.name 18 ++ "...").data =
        t.name.data.take 18 ++ ['.', '.', '.'] := rfl
    have htk : (t.name.data.take 18).length = 18 := by
      rw [List.length_take]
      omega
    refine ⟨?_, ?_, ?_⟩
    · show (jsSubstring t.name 18 ++ "...").data.length = 21
      rw [hdataeq, List.length_append, htk]
      rfl
    · rw [hdataeq, List.take_append_eq_append_take, htk]
      simp [List.take_of_length_le htk.le]
    · rw [hdataeq, List.drop_append_eq_append_drop, htk]
      simp [List.drop_of_length_le htk.le]

/-- Witness for the amended C1 at a concrete input with one short and one
long supplier name. -/
theorem label_spec_witness :
    (({ name := "Acme", warehouseSales := JsNum.fin 1 0, retailSales := JsNum.fin 0 0,
        retailTransfers := JsNum.fin 0 0, total := JsNum.fin 1 0,
        shortName := "Acme" } : SummaryRecord) ∈
      aggregate [⟨some "Acme", some "1", none, none⟩]) ∧
    ("Acme" : String).length ≤ 20 ∧ ("Acme" : String) = "Acme" :=
  ⟨by decide, by decide,
    (label_spec [⟨some "Acme", some "1", none, none⟩]
      { name := "Acme", warehouseSales := JsNum.fin 1 0, retailSales := JsNum.fin 0 0,
        retailTransfers := JsNum.fin 0 0, total := JsNum.fin 1 0, shortName := "Acme" }
      (by decide)).1 (by decide)⟩

/-- Selector for the three numeric columns of a row. -/
inductive NumField where
  | wh : NumField
  | rt : NumField
  | tr : NumField
deriving DecidableEq

/-- Read the selected numeric column. -/
def getNumField (f : NumField) (r : Row) : Option String :=
  match f with
  | NumField.wh => r.warehouseSalesStr
  | NumField.rt => r.retailSalesStr
  | NumField.tr => r.retailTransfersStr

/-- Replace the selected numeric column. -/
def setNumField (f : NumField) (v : Option String) (r : Row) : Row :=
  match f with
  | NumField.wh => { r with warehouseSalesStr := v }
  | NumField.rt => { r with retailSalesStr := v }
  | NumField.tr => { r with retailTransfersStr := v }

theorem addRow_set_zero (r : Row) (f : NumField)
    (h : parseFloat (getNumField f r) = JsNum.nan) :
    addRow (setNumField f (some "0") r) = addRow r := by
  funext a
  have h0 : contrib (some "0") = JsNum.fin 0 0 := by decide
  cases f with
  | wh =>
    have hc : contrib r.warehouseSalesStr = JsNum.fin 0 0 := by
      rw [contrib, getNumField] at *
      rw [h]
      rfl
    simp [addRow, setNumField, h0, hc]
  | rt =>
    have hc : contrib r.retailSalesStr = JsNum.fin 0 0 := by
      rw [contrib, getNumField] at *
      rw [h]
      rfl
    simp [addRow, setNumField, h0, hc]
  | tr =>
    have hc : contrib r.retailTransfersStr = JsNum.fin 0 0 := by
      rw [contrib, getNumField] at *
      rw [h]
      rfl
    simp [addRow, setNumField, h0, hc]

theorem step_set_zero (m : List (String × Accum)) (r : Row) (f : NumField)
    (h : parseFloat (getNumField f r) = JsNum.nan) :
    step m (setNumField f (some "0") r) = step m r := by
  have hkey : rowKey (setNumField f (some "0") r) = rowKey r := by cases f <;> rfl
  simp only [step, hkey, addRow_set_zero r f h]

/-- C2: when a numeric field of a row is missing or unparsable
(`parseFloat` returns `NaN`), that field contributes exactly `0.0` — the
whole run is unchanged if the malformed field is replaced by `"0"` — the
(total) aggregation never fails, and the row's other fields, which are left
untouched by the replacement, accumulate exactly as before. -/
theorem malformed_field_contributes_zero (pre post : List Row) (r : Row) (f : NumField)
    (h : parseFloat (getNumField f r) = JsNum.nan) :
    contrib (getNumField f r) = JsNum.fin 0 0 ∧
    aggregate (pre ++ setNumField f (some "0") r :: post) = aggregate (pre ++ r :: post) := by
  have hc : contrib (getNumField f r) = JsNum.fin 0 0 := by
    rw [contrib, h]
    rfl
  refine ⟨hc, ?_⟩
  have hwd : warehouseData (pre ++ setNumField f (some "0") r :: post) =
      warehouseData (pre ++ r :: post) := by
    simp only [warehouseData, List.foldl_append, List.foldl_cons]
    rw [step_set_zero _ r f h]
  simp [aggregate, formattedData, topWarehouses, sortedArray, dataArray, hwd]

/-- Witness for C2 at a concrete input: the unparsable `"oops"` behaves
exactly like `"0"` while the valid `"5"` still accumulates. -/
theorem malformed_field_contributes_zero_witness :
    contrib (some "oops") = JsNum.fin 0 0 ∧
    aggregate [⟨some "Acme", some "0", some "5", none⟩] =
      aggregate [⟨some "Acme", some "oops", some "5", none⟩] := by
  have h := malformed_field_contributes_zero [] [] ⟨some "Acme", some "oops", some "5", none⟩
    NumField.wh (by decide)
  simpa [setNumField, getNumField] using h

theorem pairwise_imp_mem {α : Type} {R S : α → α → Prop} {l : List α}
    (h : ∀ a ∈ l, ∀ b ∈ l, R a b → S a b) (hp : l.Pairwise R) : l.Pairwise S := by
  induction l with
  | nil => exact List.Pairwise.nil
  | cons x xs ih =>
    obtain ⟨hx, hxs⟩ := List.pairwise_cons.mp hp
    refine List.pairwise_cons.mpr ⟨?_, ?_⟩
    · intro b hb
      exact h x (List.mem_cons_self x xs) b (List.mem_cons_of_mem _ hb) (hx b hb)
    · exact ih (fun a ha b hb => h a (List.mem_cons_of_mem _ ha) b (List.mem_cons_of_mem _ hb))
        hxs

/-- The record's total is a finite decimal. -/
def finTotal (t : TotAcc) : Prop := t.total.isFinite = true

instance (r : Row) : Decidable (finiteRow r) := by
  unfold finiteRow; infer_instance

instance (t : TotAcc) : Decidable (finTotal t) := by
  unfold finTotal; infer_instance

theorem JsNum.isFinite_iff {v : JsNum} :
    v.isFinite = true ↔ ∃ n : ℤ, ∃ e : ℕ, v = JsNum.fin n e := by
  cases v <;> simp [JsNum.isFinite]

theorem sortLe_fin {n₁ n₂ : ℤ} {e₁ e₂ : ℕ} {a b : TotAcc}
    (ha : a.total = JsNum.fin n₁ e₁) (hb : b.total = JsNum.fin n₂ e₂) :
    sortLe a b = true ↔ n₂ * 10 ^ e₁ ≤ n₁ * 10 ^ e₂ := by
  rw [sortLe, ha, hb]
  simp only [JsNum.sub, JsNum.neg, JsNum.add, JsNum.isPos, Bool.not_eq_true',
    decide_eq_false_iff_not, not_lt, neg_mul, ← sub_eq_add_neg, sub_nonpos]

theorem sortLe_total_fin {a b : TotAcc} (ha : finTotal a) (hb : finTotal b) :
    sortLe a b = true ∨ sortLe b a = true := by
  obtain ⟨n₁, e₁, ha'⟩ := JsNum.isFinite_iff.mp ha
  obtain ⟨n₂, e₂, hb'⟩ := JsNum.isFinite_iff.mp hb
  rw [sortLe_fin ha' hb', sortLe_fin hb' ha']
  exact le_total _ _

theorem sortLe_trans_fin {a b c : TotAcc} (ha : finTotal a) (hb : finTotal b)
    (hc : finTotal c) (hab : sortLe a b = true) (hbc : sortLe b c = true) :
    sortLe a c = true := by
  obtain ⟨n₁, e₁, ha'⟩ := JsNum.isFinite_iff.mp ha
  obtain ⟨n₂, e₂, hb'⟩ := JsNum.isFinite_iff.mp hb
  obtain ⟨n₃, e₃, hc'⟩ := JsNum.isFinite_iff.mp hc
  rw [sortLe_fin ha' hb'] at hab
  rw [sortLe_fin hb' hc'] at hbc
  rw [sortLe_fin ha' hc']
  have p1 : (0:ℤ) < 10 ^ e₁ := by positivity
  have p2 : (0:ℤ) < 10 ^ e₂ := by positivity
  have p3 : (0:ℤ) < 10 ^ e₃ := by positivity
  have h1 := mul_le_mul_of_nonneg_right hab p3.le
  have h2 := mul_le_mul_of_nonneg_right hbc p1.le
  have h3 : n₃ * 10 ^ e₁ * 10 ^ e₂ ≤ n₁ * 10 ^ e₃ * 10 ^ e₂ := by nlinarith
  exact le_of_mul_le_mul_right h3 p2

theorem sortLe_ge_fin {a b : TotAcc} (ha : finTotal a) (hb : finTotal b)
    (h : sortLe a b = true) : JsNum.ge a.total b.total = true := by
  obtain ⟨n₁, e₁, ha'⟩ := JsNum.isFinite_iff.mp ha
  obtain ⟨n₂, e₂, hb'⟩ := JsNum.isFinite_iff.mp hb
  rw [sortLe_fin ha' hb'] at h
  rw [ha', hb']
  simpa [JsNum.ge] using h

theorem dataArray_finTotal (rows : List Row) (h : ∀ r ∈ rows, finiteRow r) :
    ∀ t ∈ dataArray rows, finTotal t := by
  intro t ht
  obtain ⟨w, hw, rfl⟩ := mem_dataArray rows t ht
  exact withTotal_total_finite (accFor_finite rows w h)

/-- Model-level sortedness lemma: when every row's three contributions are
finite, each adjacent pair of output records satisfies
`earlier.total >= later.total` in the JavaScript order.  The claim-bearing
statement is `sorted_desc_on_exact_domain`, which applies this on the
inputs where the model's exact arithmetic coincides with the program's
binary64 arithmetic. -/
theorem sorted_desc_of_finite (rows : List Row) (h : ∀ r ∈ rows, finiteRow r) :
    (aggregate rows).Chain' (fun x y => JsNum.ge x.total y.total = true) := by
  have hfin : ∀ t ∈ dataArray rows, finTotal t := dataArray_finTotal rows h
  have hpw : (sortedArray rows).Pairwise (fun a b => sortLe a b = true) :=
    pairwise_sortJs sortLe (dataArray rows) finTotal hfin
      (fun a ha b hb => sortLe_total_fin ha hb)
      (fun a ha b hb c hc => sortLe_trans_fin ha hb hc)
  have hfins : ∀ t ∈ sortedArray rows, finTotal t := fun t ht =>
    hfin t (((sortJs_perm _ _).mem_iff).mp ht)
  have hpw2 : (topWarehouses rows).Pairwise
      (fun a b => JsNum.ge a.total b.total = true) := by
    have hsub := List.take_sublist 15 (sortedArray rows)
    refine pairwise_imp_mem ?_ (hpw.sublist hsub)
    intro a ha b hb hab
    exact sortLe_ge_fin (hfins a (hsub.subset ha)) (hfins b (hsub.subset hb)) hab
  have hch : (topWarehouses rows).Chain' (fun a b => JsNum.ge a.total b.total = true) :=
    hpw2.chain'
  rw [aggregate, formattedData, List.chain'_map]
  exact hch


/-- Model-level finiteness lemma: when every row's three contributions are
finite, every numeric field of every output record is a finite decimal.
The claim-bearing statement is `fields_finite_on_exact_domain`, which
applies this on the inputs where the model's exact arithmetic coincides
with the program's binary64 arithmetic. -/
theorem fields_finite_of_no_infinity (rows : List Row) (h : ∀ r ∈ rows, finiteRow r) :
    ∀ rec ∈ aggregate rows,
      rec.warehouseSales.isFinite = true ∧ rec.retailSales.isFinite = true ∧
      rec.retailTransfers.isFinite = true ∧ rec.total.isFinite = true := by
  intro rec hrec
  obtain ⟨t, ht, rfl⟩ := mem_of_mem_formattedData rows rec hrec
  obtain ⟨w, hw, rfl⟩ := mem_dataArray rows t ht
  obtain ⟨h1, h2, h3⟩ := accFor_finite rows w h
  exact ⟨h1, h2, h3, withTotal_total_finite (accFor_finite rows w h)⟩


theorem accFor_perm {rows₁ rows₂ : List Row} (hp : rows₁.Perm rows₂) (w : String) :
    accFor rows₁ w = accFor rows₂ w := by
  have hfil : (rows₁.filter fun r => decide (rowKey r = some w)).Perm
      (rows₂.filter fun r => decide (rowKey r = some w)) := hp.filter _
  haveI : RightCommutative (fun (a : Accum) (r : Row) => addRow r a) :=
    ⟨fun a r₁ r₂ => addRow_comm r₂ r₁ a⟩
  exact hfil.foldl_eq _

theorem keyList_perm {rows₁ rows₂ : List Row} (hp : rows₁.Perm rows₂) :
    (keyList rows₁).Perm (keyList rows₂) := by
  rw [keyList, keyList, List.perm_ext_iff_of_nodup (nodup_seenKeys _) (nodup_seenKeys _)]
  intro a
  rw [mem_seenKeys, mem_seenKeys]
  exact ((hp.filterMap rowKey).filter _).mem_iff

theorem dataArray_perm {rows₁ rows₂ : List Row} (hp : rows₁.Perm rows₂) :
    (dataArray rows₁).Perm (dataArray rows₂) := by
  rw [dataArray, dataArray, warehouseData_eq, warehouseData_eq, List.map_map, List.map_map]
  have hfun : ((fun p : String × Accum => withTotal p.2) ∘ fun w => (w, accFor rows₁ w)) =
      ((fun p : String × Accum => withTotal p.2) ∘ fun w => (w, accFor rows₂ w)) := by
    funext w
    simp [Function.comp, accFor_perm hp w]
  rw [hfun]
  exact (keyList_perm hp).map _

/-- Strict comparison of two records' totals, false unless both are finite. -/
def strictGtTotal (a b : TotAcc) : Prop :=
  match a.total, b.total with
  | JsNum.fin n₁ e₁, JsNum.fin n₂ e₂ => n₂ * 10 ^ e₁ < n₁ * 10 ^ e₂
  | _, _ => False

theorem strictGtTotal_asymm (a b : TotAcc) (hab : strictGtTotal a b)
    (hba : strictGtTotal b a) : False := by
  unfold strictGtTotal at hab hba
  cases ha : a.total <;> rw [ha] at hab hba <;> try exact hab
  cases hb : b.total <;> rw [hb] at hab hba <;> try exact hab
  exact absurd hba (not_lt.mpr hab.le)

theorem eq_of_perm_of_pairwise {α : Type} {R : α → α → Prop}
    (hasym : ∀ a b, R a b → R b a → False) :
    ∀ {l₁ l₂ : List α}, l₁.Perm l₂ → l₁.Pairwise R → l₂.Pairwise R → l₁ = l₂ := by
  intro l₁
  induction l₁ with
  | nil =>
    intro l₂ hp _ _
    exact (List.Perm.nil_eq hp).symm ▸ rfl
  | cons a t₁ ih =>
    intro l₂ hp hp₁ hp₂
    cases l₂ with
    | nil => exact absurd hp.symm (by simp)
    | cons b t₂ =>
      by_cases hab : a = b
      · subst hab
        obtain ⟨_, ht₁⟩ := List.pairwise_cons.mp hp₁
        obtain ⟨_, ht₂⟩ := List.pairwise_cons.mp hp₂
        rw [ih hp.cons_inv ht₁ ht₂]
      · exfalso
        have hamem : a ∈ t₂ := by
          have := hp.mem_iff.mp (List.mem_cons_self a t₁)
          rcases List.mem_cons.mp this with h | h
          · exact absurd h hab
          · exact h
        have hbmem : b ∈ t₁ := by
          have := hp.mem_iff.mpr (List.mem_cons_self b t₂)
          rcases List.mem_cons.mp this with h | h
          · exact absurd h.symm hab
          · exact h
        have hRab : R a b := (List.pairwise_cons.mp hp₁).1 b hbmem
        have hRba : R b a := (List.pairwise_cons.mp hp₂).1 a hamem
        exact hasym a b hRab hRba

/-- The totals of the groups (the pre-sort `dataArray` entries). -/
def groupTotals (rows : List Row) : List JsNum := (dataArray rows).map TotAcc.total

theorem JsNum.valEq_symm {a b : JsNum} (h : valEq a b) : valEq b a := by
  cases a <;> cases b <;> simp_all [valEq]

theorem strictGt_of_sortLe {a b : TotAcc} (ha : finTotal a) (hb : finTotal b)
    (hle : sortLe a b = true) (hne : ¬ JsNum.valEq a.total b.total) :
    strictGtTotal a b := by
  obtain ⟨n₁, e₁, ha'⟩ := JsNum.isFinite_iff.mp ha
  obtain ⟨n₂, e₂, hb'⟩ := JsNum.isFinite_iff.mp hb
  rw [sortLe_fin ha' hb'] at hle
  rw [ha', hb'] at hne
  simp only [JsNum.valEq] at hne
  unfold strictGtTotal
  rw [ha', hb']
  exact lt_of_le_of_ne hle (fun hh => hne hh.symm)

/-- Model-level permutation-invariance lemma: the aggregation is
permutation-invariant whenever the group totals are finite and pairwise
distinct as values.  The claim-bearing statement is
`perm_invariance_on_exact_domain`, which applies this on the inputs where
the model's exact — hence order-independent — addition coincides with the
program's binary64 addition. -/
theorem perm_invariance_of_distinct_totals (rows₁ rows₂ : List Row)
    (hperm : rows₁.Perm rows₂)
    (hfin : ∀ t ∈ groupTotals rows₁, t.isFinite = true)
    (hdis : (groupTotals rows₁).Pairwise (fun a b => ¬ JsNum.valEq a b)) :
    aggregate rows₁ = aggregate rows₂ := by
  have hda : (dataArray rows₁).Perm (dataArray rows₂) := dataArray_perm hperm
  have hs : (sortedArray rows₁).Perm (sortedArray rows₂) :=
    (sortJs_perm _ _).trans (hda.trans (sortJs_perm _ _).symm)
  have hfin1 : ∀ t ∈ dataArray rows₁, finTotal t := fun t ht =>
    hfin _ (List.mem_map_of_mem _ ht)
  have hfin2 : ∀ t ∈ dataArray rows₂, finTotal t := fun t ht =>
    hfin1 t (hda.mem_iff.mpr ht)
  have hpw1 : (sortedArray rows₁).Pairwise (fun a b => sortLe a b = true) :=
    pairwise_sortJs sortLe (dataArray rows₁) finTotal hfin1
      (fun a ha b hb => sortLe_total_fin ha hb)
      (fun a ha b hb c hc => sortLe_trans_fin ha hb hc)
  have hpw2 : (sortedArray rows₂).Pairwise (fun a b => sortLe a b = true) :=
    pairwise_sortJs sortLe (dataArray rows₂) finTotal hfin2
      (fun a ha b hb => sortLe_total_fin ha hb)
      (fun a ha b hb c hc => sortLe_trans_fin ha hb hc)
  have hsymm : Symmetric (fun a b : TotAcc => ¬ JsNum.valEq a.total b.total) :=
    fun a b hab hba => hab (JsNum.valEq_symm hba)
  have hdis1 : (sortedArray rows₁).Pairwise
      (fun a b => ¬ JsNum.valEq a.total b.total) := by
    have h0 : (dataArray rows₁).Pairwise
        (fun a b => ¬ JsNum.valEq a.total b.total) := by
      rw [groupTotals] at hdis
      exact (List.pairwise_map.mp hdis)
    exact ((sortJs_perm sortLe (dataArray rows₁)).pairwise_iff
      (fun h => hsymm h)).mpr h0
  have hdis2 : (sortedArray rows₂).Pairwise
      (fun a b => ¬ JsNum.valEq a.total b.total) :=
    (hs.pairwise_iff (fun h => hsymm h)).mp hdis1
  have hfins1 : ∀ t ∈ sortedArray rows₁, finTotal t := fun t ht =>
    hfin1 t (((sortJs_perm _ _).mem_iff).mp ht)
  have hfins2 : ∀ t ∈ sortedArray rows₂, finTotal t := fun t ht =>
    hfin2 t (((sortJs_perm _ _).mem_iff).mp ht)
  have hstrict1 : (sortedArray rows₁).Pairwise strictGtTotal := by
    refine pairwise_imp_mem ?_ (hpw1.and hdis1)
    intro a ha b hb hab
    exact strictGt_of_sortLe (hfins1 a ha) (hfins1 b hb) hab.1 hab.2
  have hstrict2 : (sortedArray rows₂).Pairwise strictGtTotal := by
    refine pairwise_imp_mem ?_ (hpw2.and hdis2)
    intro a ha b hb hab
    exact strictGt_of_sortLe (hfins2 a ha) (hfins2 b hb) hab.1 hab.2
  have heq : sortedArray rows₁ = sortedArray rows₂ :=
    eq_of_perm_of_pairwise strictGtTotal_asymm hs hstrict1 hstrict2
  rw [aggregate, formattedData, formattedData, topWarehouses, topWarehouses, heq]


/-- The field's contribution, when it is the integer decimal `fin n 0`:
missing and unparsable fields give the integer `0` (via the `|| 0`
coercion), plain integer numerals and integer-valued exponent forms give
their integer value; fractional or infinite values give `none`. -/
def contribInt (s : Option String) : Option ℤ :=
  match contrib s with
  | JsNum.fin n 0 => some n
  | _ => none

/-- All three contributions of the row are integer decimals. -/
def intRow (r : Row) : Prop :=
  (contribInt r.warehouseSalesStr).isSome = true ∧
  (contribInt r.retailSalesStr).isSome = true ∧
  (contribInt r.retailTransfersStr).isSome = true

instance (r : Row) : Decidable (intRow r) := by
  unfold intRow; infer_instance

/-- Total absolute integer mass of the row's three contributions. -/
def rowMass (r : Row) : ℕ :=
  ((contribInt r.warehouseSalesStr).getD 0).natAbs +
  ((contribInt r.retailSalesStr).getD 0).natAbs +
  ((contribInt r.retailTransfersStr).getD 0).natAbs

/-- Inputs on which the program's IEEE-754 binary64 arithmetic is exact
and therefore agrees with this exact model: every numeric field
contributes an integer value, and the total absolute mass of all
contributions is below `2 ^ 53`.  On such inputs every parsed value, every
running sum, every total and every comparator difference is an integer of
magnitude below `2 ^ 53`, hence exactly representable as a double and
computed by the program without rounding or overflow: no `±Infinity` or
`NaN` can arise, and the program's addition is associative and commutative
there.  Outside this domain, binary64 rounding (`2 ^ 53 + 1 + 1` is
order-dependent) and overflow (`1e308 + 1e308 = Infinity`,
`parseFloat("1e400") = Infinity`) are not captured by the exact model. -/
def exactDomain (rows : List Row) : Prop :=
  (∀ r ∈ rows, intRow r) ∧ (rows.map rowMass).sum < 2 ^ 53

instance (rows : List Row) : Decidable (exactDomain rows) := by
  unfold exactDomain; infer_instance

theorem contrib_finite_of_int {s : Option String}
    (h : (contribInt s).isSome = true) : (contrib s).isFinite = true := by
  unfold contribInt at h
  cases hc : contrib s with
  | nan => rw [hc] at h; simp at h
  | inf b => rw [hc] at h; simp at h
  | fin n e => rfl

theorem finiteRow_of_intRow {r : Row} (h : intRow r) : finiteRow r :=
  ⟨contrib_finite_of_int h.1, contrib_finite_of_int h.2.1, contrib_finite_of_int h.2.2⟩

theorem finiteRows_of_exactDomain {rows : List Row} (h : exactDomain rows) :
    ∀ r ∈ rows, finiteRow r :=
  fun r hr => finiteRow_of_intRow (h.1 r hr)

theorem groupTotals_finite (rows : List Row) (h : ∀ r ∈ rows, finiteRow r) :
    ∀ t ∈ groupTotals rows, t.isFinite = true := by
  intro t ht
  obtain ⟨ta, hta, rfl⟩ := List.mem_map.mp ht
  exact dataArray_finTotal rows h ta hta

